import Mathlib

/-!
Verification of the Raveling web designer frontend.

This file gives a shallow embedding, in Lean 4, of the parts of the
Raveling repository that the specification talks about: the damage-analysis
component (`AnalysisTools.tsx`), the histogram binning, the distribution
parameter widget and its dice-probability computation
(`DistributionParameterWidget.tsx`), the effector type lists
(`SimpleEffectorSelector.tsx`, `EffectStyleDesigner.tsx`,
`EffectorSelector.tsx`), the YAML preview assembly (`YAMLPreview.tsx`),
the weapon form state updates (`WeaponForm.tsx`), and the user colour
hashing (`userColors.ts`, `colors.ts`).

JavaScript numbers are modelled as rationals (`ℚ`); 32-bit integer
coercion (`x & x`, `<< 5`) is modelled exactly on `ℤ` with explicit
reduction modulo `2^32`; JavaScript `Map`s are modelled by their lookup
function; optional / possibly-`undefined` fields are modelled with
`Option`.
-/

namespace Raveling

/-! ## Colour constants (`src/frontend/src/constants/colors.ts`) -/

/-- The `REGAL_COLORS` palette from `colors.ts` (12 entries). -/
def REGAL_COLORS : List String :=
  [ "#4a90e2"  -- PRIMARY_BLUE
  , "#5cb85c"  -- PRIMARY_GREEN
  , "#7db8e8"  -- PRIMARY_BLUE_LIGHT
  , "#7dd87d"  -- PRIMARY_GREEN_LIGHT
  , "#2c5aa0"  -- PRIMARY_BLUE_DARK
  , "#3d8b3d"  -- PRIMARY_GREEN_DARK
  , "#6ab3d3"  -- SKY_BLUE
  , "#8bc34a"  -- LIME_GREEN
  , "#5e9fd4"  -- MEDIUM_BLUE
  , "#66bb6a"  -- MEDIUM_GREEN
  , "#42a5f5"  -- BRIGHT_BLUE
  , "#4caf50"  -- BRIGHT_GREEN
  ]

/-! ## User colours (`src/frontend/src/utils/userColors.ts`) -/

/-- JavaScript `ToInt32`: reduce an integer into `[-2^31, 2^31)`.
This is what `hash & hash` performs in `hashString`. -/
def toInt32 (z : ℤ) : ℤ := (z + 2 ^ 31) % 2 ^ 32 - 2 ^ 31

/-- One iteration of the loop body of `hashString`:
`hash = ((hash << 5) - hash) + char; hash = hash & hash;`.
`hash << 5` coerces to int32 and shifts (`toInt32 (h * 32)`); the
subtraction and addition are exact (operands are far below `2^53`), and
`hash & hash` coerces the result back to int32. -/
def hashStep (h : ℤ) (c : ℕ) : ℤ := toInt32 (toInt32 (h * 32) - h + c)

/-- `hashString` from `userColors.ts`, over the UTF-16 code units of the
input string: fold `hashStep` from 0, then `Math.abs`. -/
def hashString (codes : List ℕ) : ℕ := (codes.foldl hashStep 0).natAbs

/-- `getUserColor` from `userColors.ts`.  The database colour is used when
truthy (present and non-empty); otherwise the colour is the palette entry
at `hashString(String(userId)) % REGAL_COLORS.length`.  The indexing
`REGAL_COLORS[index]` is modelled by `List.get?` so that an out-of-bounds
access would show up as `none` (JavaScript `undefined`). -/
def getUserColor (uidCodes : List ℕ) (userColorFromDB : Option String) :
    Option String :=
  match userColorFromDB with
  | some c => if c = "" then REGAL_COLORS.get? (hashString uidCodes % REGAL_COLORS.length)
              else some c
  | none => REGAL_COLORS.get? (hashString uidCodes % REGAL_COLORS.length)

/-! ## Effector and distribution type lists -/

namespace DistributionWidget

/-- `DISTRIBUTION_TYPES` from `DistributionParameterWidget.tsx` line 17. -/
def DISTRIBUTION_TYPES : List String :=
  ["uniform", "gaussian", "skewnorm", "bimodal", "die_roll"]

/-- A distribution parameter value: JavaScript `number | string`. -/
inductive ParamVal where
  | num (q : ℚ)
  | str (s : String)
deriving DecidableEq, Repr

/-- The type-change default parameters of `DistributionParameterWidget`
(lines 179–196): selecting a new distribution type resets the parameters
to exactly these key/value pairs. -/
def typeChangeDefaults (t : String) : List (String × ParamVal) :=
  if t = "uniform" then [("min_val", .num 0), ("max_val", .num 10)]
  else if t = "gaussian" then [("mean", .num 10), ("std_dev", .num 2)]
  else if t = "skewnorm" then [("mean", .num 10), ("std_dev", .num 2), ("skew", .num 0)]
  else if t = "bimodal" then
    [("mean1", .num 5), ("std1", .num 1), ("mean2", .num 15), ("std2", .num 1),
     ("weight", .num (1/2))]
  else if t = "die_roll" then [("notation", .str "1d6")]
  else []

end DistributionWidget

namespace SimpleSelector

/-- `EFFECTOR_TYPES` from `SimpleEffectorSelector.tsx` line 5. -/
def EFFECTOR_TYPES : List String :=
  ["damage", "regenerative", "buff", "debuff", "process"]

/-- `DISTRIBUTION_TYPES` from `SimpleEffectorSelector.tsx` line 8. -/
def DISTRIBUTION_TYPES : List String :=
  ["uniform", "gaussian", "skewnorm", "bimodal", "die_roll"]

/-- The parameter keys that `handleApply` in `SimpleEffectorSelector.tsx`
copies into `effector.distribution_parameters.params` for each
distribution family. -/
def appliedParamKeys (t : String) : List String :=
  if t = "uniform" then ["min_val", "max_val"]
  else if t = "gaussian" then ["mean", "std_dev"]
  else if t = "skewnorm" then ["mean", "std_dev", "skew"]
  else if t = "bimodal" then ["mean1", "std1", "mean2", "std2", "weight"]
  else if t = "die_roll" then ["notation"]
  else []

end SimpleSelector

namespace StyleDesigner

/-- `EFFECTOR_TYPES` from `EffectStyleDesigner.tsx` line 9. -/
def EFFECTOR_TYPES : List String :=
  ["damage", "regenerative", "buff", "debuff", "process"]

end StyleDesigner

namespace SelectorFilter

/-- The effector-type filter options of `EffectorSelector.tsx`
(lines 83–90): the `"all"` wildcard followed by the five concrete types. -/
def typeFilterOptions : List String :=
  ["all", "damage", "regenerative", "buff", "debuff", "process"]

end SelectorFilter

/-! ## Weapon configuration data (`EffectorSelector.tsx` `EffectorConfig`,
`WeaponForm.tsx` `WeaponFormData`) -/

/-- `distribution_parameters` of an effector:
`{ type: string; params: Record<string, any> }`. -/
structure DistParamsCfg where
  dtype : String
  params : List (String × DistributionWidget.ParamVal)
deriving DecidableEq, Repr

/-- The `EffectorConfig` interface of `EffectorSelector.tsx`.  Optional
(possibly-`undefined`) fields are `Option`s. -/
structure EffectorConfig where
  effector_type : String
  effector_name : String
  execution_probability : Option ℚ
  damage_subtype : Option String
  element_type : Option String
  attribute_type : Option String
  affected_attributes : Option (List String)
  base_damage : Option ℚ
  base_restoration : Option ℚ
  base_buff : Option ℚ
  base_debuff : Option ℚ
  duration : Option ℚ
  stackable : Option Bool
  distribution_parameters : Option DistParamsCfg
  process_config : Option (List (String × String))
deriving DecidableEq, Repr

/-- An affinities/detriments group: `{ elemental, race }`, each a
`Record<string, number>` modelled as an association list. -/
structure AffGroup where
  elemental : Option (List (String × ℚ))
  race : Option (List (String × ℚ))
deriving DecidableEq, Repr

/-- The weapon configuration as seen by `YAMLPreview.tsx` and
`AnalysisTools.tsx` (an untyped `weaponConfig: any` whose fields may each
be absent). -/
structure WeaponConfigIn where
  name : Option String
  short_desc : Option String
  long_desc : Option String
  weight_kg : Option ℚ
  length_cm : Option ℚ
  width_cm : Option ℚ
  material : Option String
  effectors : Option (List EffectorConfig)
  affinities : Option AffGroup
  detriments : Option AffGroup
  auxiliary_slots : Option ℚ
  size_constraints : Option (ℚ × ℚ)
  thumbnail_path : Option String
  restrictions : Option (List (String × String))
deriving DecidableEq, Repr

/-- The all-fields-absent weapon configuration. -/
def emptyWeaponConfig : WeaponConfigIn :=
  ⟨none, none, none, none, none, none, none, none, none, none, none, none, none, none⟩

/-! ## YAML preview (`src/frontend/src/components/weapons/YAMLPreview.tsx`) -/

/-- A YAML value of the assembled preview document. -/
inductive YVal where
  | str (s : String)
  | num (q : ℚ)
  | bool (b : Bool)
  | strList (l : List String)
  | numRec (kvs : List (String × ℚ))
  | strRec (kvs : List (String × String))
  | dist (d : DistParamsCfg)
  | pair (a b : ℚ)
  | docList (l : List (List (String × YVal)))
  | doc (kvs : List (String × YVal))

/-- Emit `[(k, g a)]` when the field is present (`!== undefined`),
nothing otherwise. -/
def entryIfSome {α : Type} (k : String) (g : α → YVal) : Option α → List (String × YVal)
  | some a => [(k, g a)]
  | none => []

/-- Emit `[(k, str s)]` when the string field is truthy (present and
non-empty), nothing otherwise. -/
def entryIfStr (k : String) : Option String → List (String × YVal)
  | some s => if s = "" then [] else [(k, .str s)]
  | none => []

/-- One serialized effector entry of the YAML preview: key order and
presence conditions follow `YAMLPreview.tsx` lines 28–59.  In particular
`execution_probability` is emitted only when it is defined and not equal
to `1.0` (lines 45–47). -/
def serializeEffector (e : EffectorConfig) : List (String × YVal) :=
  [("effector_type", .str e.effector_type), ("effector_name", .str e.effector_name)]
    ++ entryIfStr "damage_subtype" e.damage_subtype
    ++ entryIfStr "element_type" e.element_type
    ++ entryIfSome "base_damage" .num e.base_damage
    ++ entryIfSome "base_restoration" .num e.base_restoration
    ++ entryIfSome "base_buff" .num e.base_buff
    ++ entryIfSome "base_debuff" .num e.base_debuff
    ++ entryIfSome "duration" .num e.duration
    ++ entryIfSome "stackable" .bool e.stackable
    ++ entryIfStr "attribute_type" e.attribute_type
    ++ entryIfSome "affected_attributes" .strList e.affected_attributes
    ++ (match e.execution_probability with
        | some p => if p = 1 then [] else [("execution_probability", .num p)]
        | none => [])
    ++ entryIfSome "distribution_parameters" .dist e.distribution_parameters
    ++ entryIfSome "process_config" .strRec e.process_config

/-- The assembled YAML preview document (`yamlString` of
`YAMLPreview.tsx`, lines 12–103), as the ordered key/value list of the
`yamlConfig` object.  The first eight entries are unconditional, with
`'' `/`0` defaults; the remaining sections are conditional exactly as in
the source. -/
def yamlConfig (c : WeaponConfigIn) : List (String × YVal) :=
  [("name", .str (c.name.getD "")),
   ("short_desc", .str (c.short_desc.getD "")),
   ("long_desc", .str (c.long_desc.getD "")),
   ("item_type", .str "weapon"),
   ("weight_kg", .num (c.weight_kg.getD 0)),
   ("length_cm", .num (c.length_cm.getD 0)),
   ("width_cm", .num (c.width_cm.getD 0)),
   ("material", .str (c.material.getD ""))]
    ++ (match c.effectors with
        | some l => if l = [] then [] else [("effectors", .docList (l.map serializeEffector))]
        | none => [])
    ++ (match c.affinities with
        | some a => [("affinities",
            .doc [("elemental", .numRec (a.elemental.getD [])),
                  ("race", .numRec (a.race.getD []))])]
        | none => [])
    ++ (match c.detriments with
        | some a => [("detriments",
            .doc [("elemental", .numRec (a.elemental.getD [])),
                  ("race", .numRec (a.race.getD []))])]
        | none => [])
    ++ entryIfSome "auxiliary_slots" .num c.auxiliary_slots
    ++ (match c.size_constraints with
        | some p => [("size_constraints", .pair p.1 p.2)]
        | none => [])
    ++ entryIfStr "thumbnail_path" c.thumbnail_path
    ++ (match c.restrictions with
        | some r => if r = [] then [] else [("restrictions", .strRec r)]
        | none => [])

/-! ## Damage analysis component
(`src/frontend/src/components/weapons/AnalysisTools.tsx`) -/

/-- The `AnalysisData` interface (lines 21–30): the shape of the response
of the backend analysis endpoint. -/
structure AnalysisData where
  strikes : List ℚ
  cumulative_damage : List ℚ
  damage_values : List ℚ
  damage_per_strike : List ℚ
  effector_breakdown : List (String × List ℚ)
  effector_cumulative : List (String × List ℚ)
  min_damage : ℚ
  max_damage : ℚ
deriving DecidableEq, Repr

/-- The component state of `AnalysisTools` relevant to `runAnalysis`. -/
structure AnalysisState where
  numStrikes : ℕ
  loading : Bool
  error : String
  analysisData : Option AnalysisData
deriving DecidableEq, Repr

/-- The outward effect of the synchronous part of `runAnalysis`: either
no request, or an HTTP POST to a backend endpoint with its payload. -/
inductive FrontendAction where
  | noRequest
  | post (url : String) (weapon_config : WeaponConfigIn) (num_strikes : ℕ)
deriving DecidableEq, Repr

/-- The error message of the `runAnalysis` precondition guard. -/
def analysisErrorMsg : String :=
  "Please configure the weapon with at least one effector before running analysis."

/-- The synchronous part of `runAnalysis` (lines 58–71): the guard checks
`!weaponConfig.name || !weaponConfig.effectors ||
weaponConfig.effectors.length === 0`; on failure it sets the error and
returns without a request; otherwise it sets `loading`, clears the error
and issues `apiClient.post('/api/weapons/analyze-damage', ...)`. -/
def runAnalysisStart (s : AnalysisState) (cfg : WeaponConfigIn) :
    AnalysisState × FrontendAction :=
  if cfg.name.getD "" = "" ∨ cfg.effectors = none ∨ cfg.effectors = some [] then
    ({ s with error := analysisErrorMsg }, .noRequest)
  else
    ({ s with loading := true, error := "" },
     .post "/api/weapons/analyze-damage" cfg s.numStrikes)

/-- A concrete damage effector, for instantiating theorems. -/
def sampleEffector : EffectorConfig :=
  { effector_type := "damage"
    effector_name := "slash"
    execution_probability := some 1
    damage_subtype := some "physical"
    element_type := none
    attribute_type := none
    affected_attributes := none
    base_damage := some 5
    base_restoration := none
    base_buff := none
    base_debuff := none
    duration := none
    stackable := none
    distribution_parameters := none
    process_config := none }

/-- A concrete weapon configuration that passes the `runAnalysis` guard. -/
def sampleWeaponConfig : WeaponConfigIn :=
  { emptyWeaponConfig with
      name := some "Iron Sword"
      effectors := some [sampleEffector] }

/-- The initial component state of `AnalysisTools`
(`numStrikes = 100`, not loading, no error, no data). -/
def initialAnalysisState : AnalysisState :=
  { numStrikes := 100, loading := false, error := "", analysisData := none }

/-! ## Weapon form state (`src/frontend/src/components/weapons/WeaponForm.tsx`) -/

/-- A JavaScript `Record<string, number>`, modelled by its lookup
function.  The spread update `{ ...r, [k]: v }` overrides key `k` and
keeps every other key. -/
def NumRec : Type := String → Option ℚ

/-- `{ ...r, [k]: v }` on a `Record<string, number>`. -/
def recSet (r : NumRec) (k : String) (v : ℚ) : NumRec :=
  fun k' => if k' = k then some v else r k'

/-- The `'elemental' | 'race'` discriminator of
`updateAffinity`/`updateDetriment`. -/
inductive AffKind where
  | elemental
  | race
deriving DecidableEq, Repr

/-- An affinities or detriments group of the weapon form:
`{ elemental: Record<string, number>; race: Record<string, number> }`. -/
structure AffRec where
  elemental : NumRec
  race : NumRec

/-- Read one sub-record of an `AffRec` (the `prev.affinities[type]`
access). -/
def affGet (a : AffRec) : AffKind → NumRec
  | .elemental => a.elemental
  | .race => a.race

/-- Replace one sub-record of an `AffRec` (the
`{ ...prev.affinities, [type]: ... }` spread). -/
def affSet (a : AffRec) : AffKind → NumRec → AffRec
  | .elemental, r => { a with elemental := r }
  | .race, r => { a with race := r }

/-- The `WeaponFormData` state of `WeaponForm.tsx` (lines 8–29). -/
structure WeaponFormData where
  name : String
  short_desc : String
  long_desc : String
  weight_kg : ℚ
  length_cm : ℚ
  width_cm : ℚ
  material : String
  effectors : List EffectorConfig
  affinities : AffRec
  detriments : AffRec
  auxiliary_slots : ℚ
  size_constraints : Option (ℚ × ℚ)
  thumbnail_path : String
  restrictions : Option (List (String × String))

/-- The field names of `WeaponFormData` (the keys a `updateField` call
can target). -/
inductive FormField where
  | name
  | short_desc
  | long_desc
  | weight_kg
  | length_cm
  | width_cm
  | material
  | effectors
  | affinities
  | detriments
  | auxiliary_slots
  | size_constraints
  | thumbnail_path
  | restrictions
deriving DecidableEq, Repr

/-- The value type of each `WeaponFormData` field
(`WeaponFormData[K]` in the TypeScript signature of `updateField`). -/
def FieldValue : FormField → Type
  | .name => String
  | .short_desc => String
  | .long_desc => String
  | .weight_kg => ℚ
  | .length_cm => ℚ
  | .width_cm => ℚ
  | .material => String
  | .effectors => List EffectorConfig
  | .affinities => AffRec
  | .detriments => AffRec
  | .auxiliary_slots => ℚ
  | .size_constraints => Option (ℚ × ℚ)
  | .thumbnail_path => String
  | .restrictions => Option (List (String × String))

/-- Read a field of the form state. -/
def getField : (f : FormField) → WeaponFormData → FieldValue f
  | .name, w => w.name
  | .short_desc, w => w.short_desc
  | .long_desc, w => w.long_desc
  | .weight_kg, w => w.weight_kg
  | .length_cm, w => w.length_cm
  | .width_cm, w => w.width_cm
  | .material, w => w.material
  | .effectors, w => w.effectors
  | .affinities, w => w.affinities
  | .detriments, w => w.detriments
  | .auxiliary_slots, w => w.auxiliary_slots
  | .size_constraints, w => w.size_constraints
  | .thumbnail_path, w => w.thumbnail_path
  | .restrictions, w => w.restrictions

/-- `updateField` of `WeaponForm.tsx` (lines 66–68):
`setFormData(prev => ({ ...prev, [field]: value }))`. -/
def updateField : (f : FormField) → FieldValue f → WeaponFormData → WeaponFormData
  | .name, v, w => { w with name := v }
  | .short_desc, v, w => { w with short_desc := v }
  | .long_desc, v, w => { w with long_desc := v }
  | .weight_kg, v, w => { w with weight_kg := v }
  | .length_cm, v, w => { w with length_cm := v }
  | .width_cm, v, w => { w with width_cm := v }
  | .material, v, w => { w with material := v }
  | .effectors, v, w => { w with effectors := v }
  | .affinities, v, w => { w with affinities := v }
  | .detriments, v, w => { w with detriments := v }
  | .auxiliary_slots, v, w => { w with auxiliary_slots := v }
  | .size_constraints, v, w => { w with size_constraints := v }
  | .thumbnail_path, v, w => { w with thumbnail_path := v }
  | .restrictions, v, w => { w with restrictions := v }

/-- `updateAffinity` of `WeaponForm.tsx` (lines 70–78). -/
def updateAffinity (w : WeaponFormData) (t : AffKind) (k : String) (v : ℚ) :
    WeaponFormData :=
  { w with affinities := affSet w.affinities t (recSet (affGet w.affinities t) k v) }

/-- `updateDetriment` of `WeaponForm.tsx` (lines 80–88). -/
def updateDetriment (w : WeaponFormData) (t : AffKind) (k : String) (v : ℚ) :
    WeaponFormData :=
  { w with detriments := affSet w.detriments t (recSet (affGet w.detriments t) k v) }

/-- The default elemental affinity/detriment record
(`{ Earth: 1.0, Water: 1.0, Air: 1.0, Fire: 1.0 }`). -/
def defaultElemental : NumRec := fun k =>
  if k = "Earth" ∨ k = "Water" ∨ k = "Air" ∨ k = "Fire" then some 1 else none

/-- The default affinities/detriments group of the weapon form. -/
def defaultAffRec : AffRec :=
  { elemental := defaultElemental, race := fun _ => none }

/-! ## Damage simulation (backend endpoint `/api/weapons/analyze-damage`) -/

/-- Minimum of a list of rationals (0 on the empty list). -/
def qmin : List ℚ → ℚ
  | [] => 0
  | [a] => a
  | a :: b :: l => min a (qmin (b :: l))

/-- Maximum of a list of rationals (0 on the empty list). -/
def qmax : List ℚ → ℚ
  | [] => 0
  | [a] => a
  | a :: b :: l => max a (qmax (b :: l))

/-- Running cumulative sums: `cumSums acc l` maps each element to the sum
of `acc` and all elements up to and including it. -/
def cumSums (acc : ℚ) : List ℚ → List ℚ
  | [] => []
  | x :: xs => (acc + x) :: cumSums (acc + x) xs

/-- The total damage of one strike: the sum of the per-effect
contributions sampled for that strike. -/
def strikeDamage (nE : ℕ) (sample : ℕ → ℕ → ℚ) (i : ℕ) : ℚ :=
  ((List.range nE).map (fun j => sample i j)).sum

/-- The per-strike damage series of a simulation of `N` strikes over
`nE` effects. -/
def damageValues (nE N : ℕ) (sample : ℕ → ℕ → ℚ) : List ℚ :=
  (List.range N).map (strikeDamage nE sample)

/-- Modelled from the spec: the Monte Carlo damage-distribution sampler
behind the backend endpoint `/api/weapons/analyze-damage`, whose
implementation is not under `src/` (the frontend only posts to it).  Per
the spec it "draw[s] N independent samples from a configured probability
distribution per effect" — the draws are supplied by the oracle
`sample strike effect` — "sum[s] contributions" into a per-strike total,
and "report[s] min/max/cumulative series" in the `AnalysisData` shape the
frontend consumes. -/
def analyzeDamage (nE N : ℕ) (sample : ℕ → ℕ → ℚ) : AnalysisData :=
  { strikes := (List.range N).map (fun i => ((i + 1 : ℕ) : ℚ))
    cumulative_damage := cumSums 0 (damageValues nE N sample)
    damage_values := damageValues nE N sample
    damage_per_strike := damageValues nE N sample
    effector_breakdown :=
      (List.range nE).map (fun j =>
        (toString j, (List.range N).map (fun i => sample i j)))
    effector_cumulative :=
      (List.range nE).map (fun j =>
        (toString j, cumSums 0 ((List.range N).map (fun i => sample i j))))
    min_damage := qmin (damageValues nE N sample)
    max_damage := qmax (damageValues nE N sample) }

/-- A concrete sample oracle, for instantiating theorems. -/
def sampleSource : ℕ → ℕ → ℚ := fun i j => (i : ℚ) + (j : ℚ) + 1

/-! ## Dice probabilities (`calculateDiceProbabilities` of
`DistributionParameterWidget.tsx`, lines 52–76) -/

/-- One pass of the dynamic-programming loop of
`calculateDiceProbabilities`: for every existing sum and every side
`1..numSides`, the count is added at `sum + side`.  Equivalently, the new
count at `s` is the total of the old counts at `s - side` over all
sides. -/
def stepWays (n : ℕ) (w : ℤ → ℕ) : ℤ → ℕ :=
  fun s => ∑ side in Finset.Icc (1 : ℤ) (n : ℤ), w (s - side)

/-- The `ways` map after `d` iterations of the loop, starting from
`{0 ↦ 1}`.  The JavaScript `Map` is modelled by its lookup function
(absent keys count 0); its key set is exactly where the count is
positive. -/
def waysIter (n : ℕ) : ℕ → (ℤ → ℕ)
  | 0 => fun s => if s = 0 then 1 else 0
  | d + 1 => stepWays n (waysIter n d)

/-- `calculateDiceProbabilities numDice numSides`, as the probability of
each total: the way count divided by `numSides ^ numDice`. -/
def calculateDiceProbabilities (numDice numSides : ℕ) (s : ℤ) : ℚ :=
  (waysIter numSides numDice s : ℚ) / ((numSides : ℚ) ^ numDice)

/-- The faces of one die with `n` sides: `1, …, n`. -/
def dieSides (n : ℕ) : List ℤ := (List.range n).map (fun k : ℕ => (k : ℤ) + 1)

/-- All ordered outcomes of `d` dice with `n` sides each, as lists of
face values. -/
def dieLists (n : ℕ) : ℕ → List (List ℤ)
  | 0 => [[]]
  | d + 1 => (dieSides n).bind (fun side => (dieLists n d).map (fun l => side :: l))

/-- The number of ordered outcomes of `d` dice with `n` sides totalling
`s`. -/
def outcomeCount (n d : ℕ) (s : ℤ) : ℕ :=
  (dieLists n d).countP (fun l => decide (l.sum = s))

/-! ## Histogram binning (`distributionData` of `AnalysisTools.tsx`,
lines 125–152) -/

/-- The bin index of a damage value:
`Math.min(Math.floor((value - min) / binSize), numBins - 1)` with
`numBins = 20` and `binSize = (max - min) / 20`. -/
def binIndex (mn mx v : ℚ) : ℤ :=
  min ⌊(v - mn) / ((mx - mn) / 20)⌋ 19

/-- `bins[i]++`: increment the `i`-th counter.  A negative index would
set a non-element property on the JavaScript array, leaving the array
elements unchanged, so it is modelled as a no-op. -/
def bumpBin (bins : List ℕ) (i : ℤ) : List ℕ :=
  if 0 ≤ i then bins.set i.toNat (bins.getD i.toNat 0 + 1) else bins

/-- The bin counts of `distributionData`: starting from 20 zeroed bins,
each damage value increments the bin at its index. -/
def distributionBins (values : List ℚ) (mn mx : ℚ) : List ℕ :=
  values.foldl (fun b v => bumpBin b (binIndex mn mx v)) (List.replicate 20 0)

/-- A concrete weapon form state, for instantiating theorems. -/
def sampleForm : WeaponFormData :=
  { name := "Axe"
    short_desc := "A heavy axe"
    long_desc := "A heavy battle axe"
    weight_kg := 3
    length_cm := 60
    width_cm := 10
    material := "steel"
    effectors := []
    affinities := defaultAffRec
    detriments := defaultAffRec
    auxiliary_slots := 0
    size_constraints := none
    thumbnail_path := ""
    restrictions := some [] }

end Raveling

namespace Raveling

/-! ## Theorems: C4, C5, C10 -/

/-- C4: the selectable distribution families are exactly
uniform, gaussian, skewnorm, bimodal, die_roll, in both the distribution
parameter widget and the simple effector selector, and each family
carries exactly its own parameter keys (uniform: min_val/max_val;
gaussian: mean/std_dev; skewnorm: mean/std_dev/skew; bimodal:
mean1/std1/mean2/std2/weight; die_roll: notation) in both the widget's
type-change defaults and the simple selector's applied parameters. -/
theorem distribution_families_exact :
    DistributionWidget.DISTRIBUTION_TYPES =
      ["uniform", "gaussian", "skewnorm", "bimodal", "die_roll"] ∧
    SimpleSelector.DISTRIBUTION_TYPES = DistributionWidget.DISTRIBUTION_TYPES ∧
    (DistributionWidget.typeChangeDefaults "uniform").map Prod.fst = ["min_val", "max_val"] ∧
    (DistributionWidget.typeChangeDefaults "gaussian").map Prod.fst = ["mean", "std_dev"] ∧
    (DistributionWidget.typeChangeDefaults "skewnorm").map Prod.fst =
      ["mean", "std_dev", "skew"] ∧
    (DistributionWidget.typeChangeDefaults "bimodal").map Prod.fst =
      ["mean1", "std1", "mean2", "std2", "weight"] ∧
    (DistributionWidget.typeChangeDefaults "die_roll").map Prod.fst = ["notation"] ∧
    (∀ t ∈ DistributionWidget.DISTRIBUTION_TYPES,
      SimpleSelector.appliedParamKeys t =
        (DistributionWidget.typeChangeDefaults t).map Prod.fst) := by
  decide

/-- C5 counterexample: the claim names the five behavior types as
damage, buff, debuff, regeneration, process; but no effector-type option
list in the code contains the string "regeneration" (the code's type is
"regenerative"), so the option lists do not contain exactly the claimed
five types. -/
theorem effector_types_claim_false :
    "regeneration" ∉ SimpleSelector.EFFECTOR_TYPES ∧
    "regeneration" ∉ StyleDesigner.EFFECTOR_TYPES ∧
    "regeneration" ∉ SelectorFilter.typeFilterOptions ∧
    SimpleSelector.EFFECTOR_TYPES ≠ ["damage", "buff", "debuff", "regeneration", "process"] := by
  decide

/-- C5 (amended): every effector-type option list offers exactly the five
behavior types damage, regenerative, buff, debuff, process — the simple
effector selector and the effect style designer offer exactly this list,
and the effector selector's type filter offers exactly this list plus the
"all" wildcard. -/
theorem effector_types_exact :
    SimpleSelector.EFFECTOR_TYPES = ["damage", "regenerative", "buff", "debuff", "process"] ∧
    StyleDesigner.EFFECTOR_TYPES = ["damage", "regenerative", "buff", "debuff", "process"] ∧
    SelectorFilter.typeFilterOptions =
      "all" :: ["damage", "regenerative", "buff", "debuff", "process"] := by
  decide

/-- C10: for any user ID (as its code-unit list) with no database colour
set (absent or empty), `getUserColor` returns an element of the
12-element `REGAL_COLORS` palette: the index
`hashString uid % REGAL_COLORS.length` is in bounds, the lookup is never
`undefined`, and equal user IDs get equal colours. -/
theorem getUserColor_safe (uid : List ℕ) (db : Option String)
    (hdb : db = none ∨ db = some "") :
    hashString uid % REGAL_COLORS.length < REGAL_COLORS.length ∧
    (∃ c, getUserColor uid db = some c ∧ c ∈ REGAL_COLORS) ∧
    (∀ uid', uid' = uid → getUserColor uid' db = getUserColor uid db) := by
  have hlen : REGAL_COLORS.length = 12 := by decide
  have hlt : hashString uid % REGAL_COLORS.length < REGAL_COLORS.length := by
    exact Nat.mod_lt _ (by simp [hlen])
  refine ⟨hlt, ?_, by intro uid' h; rw [h]⟩
  have hget : ∃ c, REGAL_COLORS.get? (hashString uid % REGAL_COLORS.length) = some c := by
    rw [List.get?_eq_get hlt]
    exact ⟨_, rfl⟩
  obtain ⟨c, hc⟩ := hget
  have hmem : c ∈ REGAL_COLORS := by
    exact List.get?_mem hc
  rcases hdb with h | h <;> subst h
  · exact ⟨c, by simpa [getUserColor] using hc, hmem⟩
  · exact ⟨c, by simpa [getUserColor] using hc, hmem⟩

/-- C10 witness: a concrete user ID with no database colour gets a colour
from the palette. -/
theorem getUserColor_safe_witness :
    hashString [52, 50] % REGAL_COLORS.length < REGAL_COLORS.length ∧
    (∃ c, getUserColor [52, 50] none = some c ∧ c ∈ REGAL_COLORS) ∧
    (∀ uid', uid' = [52, 50] → getUserColor uid' none = getUserColor [52, 50] none) :=
  getUserColor_safe [52, 50] none (Or.inl rfl)

/-! ## Theorems: C6 (YAML preview) -/

/-- Any key of an `entryIfSome` segment is the segment's own key. -/
theorem mem_keys_entryIfSome {α : Type} {s k : String} {g : α → YVal} {o : Option α}
    (h : s ∈ (entryIfSome k g o).map Prod.fst) : s = k := by
  cases o with
  | none => simp [entryIfSome] at h
  | some a => simpa [entryIfSome] using h

/-- Any key of an `entryIfStr` segment is the segment's own key. -/
theorem mem_keys_entryIfStr {s k : String} {o : Option String}
    (h : s ∈ (entryIfStr k o).map Prod.fst) : s = k := by
  cases o with
  | none => simp [entryIfStr] at h
  | some a =>
    by_cases ha : a = ""
    · simp [entryIfStr, ha] at h
    · simpa [entryIfStr, ha] using h

/-- C6: the YAML preview document always contains the keys `name`,
`short_desc`, `long_desc`, `item_type` (always `"weapon"`), `weight_kg`,
`length_cm`, `width_cm` and `material`, with `''`/`0` defaults when the
corresponding field is unset; and a serialized effector entry contains
the `execution_probability` key if and only if the effector's
`execution_probability` is defined and not equal to `1.0`. -/
theorem yaml_preview_shape (c : WeaponConfigIn) :
    (yamlConfig c).lookup "name" = some (.str (c.name.getD "")) ∧
    (yamlConfig c).lookup "short_desc" = some (.str (c.short_desc.getD "")) ∧
    (yamlConfig c).lookup "long_desc" = some (.str (c.long_desc.getD "")) ∧
    (yamlConfig c).lookup "item_type" = some (.str "weapon") ∧
    (yamlConfig c).lookup "weight_kg" = some (.num (c.weight_kg.getD 0)) ∧
    (yamlConfig c).lookup "length_cm" = some (.num (c.length_cm.getD 0)) ∧
    (yamlConfig c).lookup "width_cm" = some (.num (c.width_cm.getD 0)) ∧
    (yamlConfig c).lookup "material" = some (.str (c.material.getD "")) ∧
    ∀ e : EffectorConfig,
      ("execution_probability" ∈ (serializeEffector e).map Prod.fst ↔
        ∃ p, e.execution_probability = some p ∧ p ≠ 1) := by
  refine ⟨rfl, rfl, rfl, rfl, rfl, rfl, rfl, rfl, ?_⟩
  intro e
  constructor
  · intro h
    simp only [serializeEffector, List.map_append, List.mem_append] at h
    rcases h with ((((((((((((h | h) | h) | h) | h) | h) | h) | h) | h) | h) | h) | h) | h) | h
    · simp at h
    · exact absurd (mem_keys_entryIfStr h) (by decide)
    · exact absurd (mem_keys_entryIfStr h) (by decide)
    · exact absurd (mem_keys_entryIfSome h) (by decide)
    · exact absurd (mem_keys_entryIfSome h) (by decide)
    · exact absurd (mem_keys_entryIfSome h) (by decide)
    · exact absurd (mem_keys_entryIfSome h) (by decide)
    · exact absurd (mem_keys_entryIfSome h) (by decide)
    · exact absurd (mem_keys_entryIfSome h) (by decide)
    · exact absurd (mem_keys_entryIfStr h) (by decide)
    · exact absurd (mem_keys_entryIfSome h) (by decide)
    · match hep : e.execution_probability with
      | none => rw [hep] at h; simp at h
      | some p =>
        rw [hep] at h
        by_cases hp : p = 1
        · simp [hp] at h
        · exact ⟨p, rfl, hp⟩
    · exact absurd (mem_keys_entryIfSome h) (by decide)
    · exact absurd (mem_keys_entryIfSome h) (by decide)
  · rintro ⟨p, hp, hp1⟩
    simp [serializeEffector, hp, hp1]

/-! ## Theorems: C7 (analysis precondition guard) -/

/-- C7: if the weapon configuration has no name, or its `effectors` field
is missing or an empty list, `runAnalysis` sets the error message and
returns without issuing any request, leaving `analysisData`, `loading`
and `numStrikes` unchanged. -/
theorem runAnalysis_guard_state (s : AnalysisState) (cfg : WeaponConfigIn)
    (h : cfg.name.getD "" = "" ∨ cfg.effectors = none ∨ cfg.effectors = some []) :
    (runAnalysisStart s cfg).1.error = analysisErrorMsg ∧
    (runAnalysisStart s cfg).1.analysisData = s.analysisData ∧
    (runAnalysisStart s cfg).1.loading = s.loading ∧
    (runAnalysisStart s cfg).1.numStrikes = s.numStrikes ∧
    (runAnalysisStart s cfg).2 = .noRequest := by
  have he : runAnalysisStart s cfg = ({ s with error := analysisErrorMsg }, .noRequest) := by
    simp only [runAnalysisStart]
    rw [if_pos h]
  refine ⟨?_, ?_, ?_, ?_, ?_⟩ <;> rw [he]

/-- C7 witness: the guard fires on the empty configuration and leaves the
displayed data untouched. -/
theorem runAnalysis_guard_state_witness :
    (runAnalysisStart initialAnalysisState emptyWeaponConfig).1.error = analysisErrorMsg ∧
    (runAnalysisStart initialAnalysisState emptyWeaponConfig).1.analysisData =
      initialAnalysisState.analysisData ∧
    (runAnalysisStart initialAnalysisState emptyWeaponConfig).1.loading =
      initialAnalysisState.loading ∧
    (runAnalysisStart initialAnalysisState emptyWeaponConfig).1.numStrikes =
      initialAnalysisState.numStrikes ∧
    (runAnalysisStart initialAnalysisState emptyWeaponConfig).2 = .noRequest :=
  runAnalysis_guard_state initialAnalysisState emptyWeaponConfig (Or.inl rfl)

/-! ## Theorems: C3 (the simulation is delegated to the backend) -/

/-- C3 counterexample: on a concrete valid weapon configuration,
`runAnalysis` issues an HTTP POST to the backend endpoint
`/api/weapons/analyze-damage` and computes no analysis data in the
frontend — refuting the claim that the repeated-trial damage simulation
is computed in the browser rather than delegated to a backend endpoint. -/
theorem runAnalysis_posts_to_backend_counterexample :
    (runAnalysisStart initialAnalysisState sampleWeaponConfig).2 =
      .post "/api/weapons/analyze-damage" sampleWeaponConfig 100 ∧
    (runAnalysisStart initialAnalysisState sampleWeaponConfig).1.analysisData = none := by
  decide

/-- C3 (amended): for every weapon configuration passing the guard, the
damage simulation is delegated to the backend: `runAnalysis` issues a
POST to `/api/weapons/analyze-damage` carrying the weapon configuration
and the requested strike count, sets `loading` and clears the error. -/
theorem runAnalysis_delegates (s : AnalysisState) (cfg : WeaponConfigIn)
    (h : ¬(cfg.name.getD "" = "" ∨ cfg.effectors = none ∨ cfg.effectors = some [])) :
    runAnalysisStart s cfg =
      ({ s with loading := true, error := "" },
       .post "/api/weapons/analyze-damage" cfg s.numStrikes) := by
  simp only [runAnalysisStart]
  rw [if_neg h]

/-- C3 witness: the delegation theorem at the sample configuration. -/
theorem runAnalysis_delegates_witness :
    runAnalysisStart initialAnalysisState sampleWeaponConfig =
      ({ initialAnalysisState with loading := true, error := "" },
       .post "/api/weapons/analyze-damage" sampleWeaponConfig 100) :=
  runAnalysis_delegates initialAnalysisState sampleWeaponConfig (by decide)

/-! ## Theorems: C8 (weapon form updates are frame-preserving) -/

/-- C8: each small controlled-input update of the weapon form is
frame-preserving. `updateField f v` sets field `f` to `v` and leaves every
other field unchanged; `updateAffinity t k v` sets only
`affinities[t][k]`, leaving the other key of the same record, the other
record, and every other form field unchanged; `updateDetriment` does the
same on `detriments`. -/
theorem weapon_form_updates_frame :
    (∀ (w : WeaponFormData) (f : FormField) (v : FieldValue f),
      getField f (updateField f v w) = v ∧
      ∀ f', f' ≠ f → getField f' (updateField f v w) = getField f' w) ∧
    (∀ (w : WeaponFormData) (t : AffKind) (k : String) (v : ℚ),
      affGet (updateAffinity w t k v).affinities t k = some v ∧
      (∀ k', k' ≠ k →
        affGet (updateAffinity w t k v).affinities t k' = affGet w.affinities t k') ∧
      (∀ t', t' ≠ t →
        affGet (updateAffinity w t k v).affinities t' = affGet w.affinities t') ∧
      (∀ f', f' ≠ FormField.affinities →
        getField f' (updateAffinity w t k v) = getField f' w)) ∧
    (∀ (w : WeaponFormData) (t : AffKind) (k : String) (v : ℚ),
      affGet (updateDetriment w t k v).detriments t k = some v ∧
      (∀ k', k' ≠ k →
        affGet (updateDetriment w t k v).detriments t k' = affGet w.detriments t k') ∧
      (∀ t', t' ≠ t →
        affGet (updateDetriment w t k v).detriments t' = affGet w.detriments t') ∧
      (∀ f', f' ≠ FormField.detriments →
        getField f' (updateDetriment w t k v) = getField f' w)) := by
  refine ⟨?_, ?_, ?_⟩
  · intro w f v
    refine ⟨by cases f <;> rfl, ?_⟩
    intro f' hne
    cases f <;> cases f' <;> first | rfl | exact absurd rfl hne
  · intro w t k v
    refine ⟨?_, ?_, ?_, ?_⟩
    · cases t <;> simp [updateAffinity, affSet, affGet, recSet]
    · intro k' hk
      cases t <;> simp [updateAffinity, affSet, affGet, recSet, hk]
    · intro t' ht
      cases t <;> cases t' <;> first | rfl | exact absurd rfl ht
    · intro f' hf
      cases f' <;> first | rfl | exact absurd rfl hf
  · intro w t k v
    refine ⟨?_, ?_, ?_, ?_⟩
    · cases t <;> simp [updateDetriment, affSet, affGet, recSet]
    · intro k' hk
      cases t <;> simp [updateDetriment, affSet, affGet, recSet, hk]
    · intro t' ht
      cases t <;> cases t' <;> first | rfl | exact absurd rfl ht
    · intro f' hf
      cases f' <;> first | rfl | exact absurd rfl hf

/-- C8 witness: on a concrete form state, renaming the weapon leaves the
material unchanged, updating the Earth affinity leaves the Water affinity
and the race record unchanged, and updating a detriment leaves the name
unchanged. -/
theorem weapon_form_updates_frame_witness :
    getField .material (updateField .name "Sword" sampleForm) = getField .material sampleForm ∧
    affGet (updateAffinity sampleForm .elemental "Earth" 2).affinities .elemental "Water" =
      affGet sampleForm.affinities .elemental "Water" ∧
    affGet (updateAffinity sampleForm .elemental "Earth" 2).affinities .race =
      affGet sampleForm.affinities .race ∧
    getField .name (updateDetriment sampleForm .elemental "Fire" 2) =
      getField .name sampleForm :=
  ⟨(weapon_form_updates_frame.1 sampleForm .name "Sword").2 .material (by decide),
   (weapon_form_updates_frame.2.1 sampleForm .elemental "Earth" 2).2.1 "Water" (by decide),
   (weapon_form_updates_frame.2.1 sampleForm .elemental "Earth" 2).2.2.1 .race (by decide),
   (weapon_form_updates_frame.2.2 sampleForm .elemental "Fire" 2).2.2.2 .name (by decide)⟩

/-! ## Theorems: C1 (spec-modelled damage simulation) -/

/-- `qmin` of a non-empty list is a member and a lower bound. -/
theorem qmin_spec : ∀ (l : List ℚ), l ≠ [] → qmin l ∈ l ∧ ∀ v ∈ l, qmin l ≤ v := by
  intro l
  induction l with
  | nil => intro h; exact absurd rfl h
  | cons a tl ih =>
    intro _
    cases tl with
    | nil =>
      refine ⟨by simp [qmin], ?_⟩
      intro v hv
      simp only [List.mem_singleton] at hv
      simp [qmin, hv]
    | cons b tl2 =>
      obtain ⟨hmem, hle⟩ := ih (by simp)
      have hq : qmin (a :: b :: tl2) = min a (qmin (b :: tl2)) := rfl
      constructor
      · rcases le_total a (qmin (b :: tl2)) with h | h
        · rw [hq, min_eq_left h]; exact List.mem_cons_self a _
        · rw [hq, min_eq_right h]; exact List.mem_cons_of_mem a hmem
      · intro v hv
        rcases List.mem_cons.1 hv with h | h
        · rw [hq, h]; exact min_le_left _ _
        · rw [hq]; exact le_trans (min_le_right _ _) (hle v h)

/-- `qmax` of a non-empty list is a member and an upper bound. -/
theorem qmax_spec : ∀ (l : List ℚ), l ≠ [] → qmax l ∈ l ∧ ∀ v ∈ l, v ≤ qmax l := by
  intro l
  induction l with
  | nil => intro h; exact absurd rfl h
  | cons a tl ih =>
    intro _
    cases tl with
    | nil =>
      refine ⟨by simp [qmax], ?_⟩
      intro v hv
      simp only [List.mem_singleton] at hv
      simp [qmax, hv]
    | cons b tl2 =>
      obtain ⟨hmem, hle⟩ := ih (by simp)
      have hq : qmax (a :: b :: tl2) = max a (qmax (b :: tl2)) := rfl
      constructor
      · rcases le_total a (qmax (b :: tl2)) with h | h
        · rw [hq, max_eq_right h]; exact List.mem_cons_of_mem a hmem
        · rw [hq, max_eq_left h]; exact List.mem_cons_self a _
      · intro v hv
        rcases List.mem_cons.1 hv with h | h
        · rw [hq, h]; exact le_max_left _ _
        · rw [hq]; exact le_trans (hle v h) (le_max_right _ _)

/-- `cumSums` preserves length. -/
theorem cumSums_length : ∀ (l : List ℚ) (acc : ℚ), (cumSums acc l).length = l.length := by
  intro l
  induction l with
  | nil => intro acc; rfl
  | cons x xs ih => intro acc; simp [cumSums, ih]

/-- The `i`-th running sum is `acc` plus the sum of the first `i + 1`
elements. -/
theorem cumSums_getD : ∀ (l : List ℚ) (acc : ℚ) (i : ℕ), i < l.length →
    (cumSums acc l).getD i 0 = acc + (l.take (i + 1)).sum := by
  intro l
  induction l with
  | nil => intro acc i h; simp at h
  | cons x xs ih =>
    intro acc i h
    cases i with
    | zero => simp [cumSums]
    | succ n =>
      have hn : n < xs.length := by simpa using h
      have h1 : (cumSums acc (x :: xs)).getD (n + 1) 0 = (cumSums (acc + x) xs).getD n 0 := rfl
      rw [h1, ih (acc + x) n hn, List.take_succ_cons, List.sum_cons]
      ring

/-- `getD` on a mapped range evaluates the function. -/
theorem getD_map_range (f : ℕ → ℚ) {N i : ℕ} (h : i < N) :
    ((List.range N).map f).getD i 0 = f i := by
  simp [List.getD, List.getElem?_map, List.getElem?_range h]

/-- C1: for a damage-analysis run with `N` requested strikes over `nE`
configured effects, the simulation draws one sample per strike and
effect, sums the per-effect contributions into a per-strike total, and
the reported `AnalysisData` has `strikes`, `damage_values` and
`cumulative_damage` of length `N`, per-strike totals equal to the sum of
the per-effect samples, cumulative damage equal to the running sums of
the per-strike totals, and `min_damage`/`max_damage` equal to the
minimum/maximum of the per-strike totals. -/
theorem analyzeDamage_spec (nE N : ℕ) (sample : ℕ → ℕ → ℚ) (hN : 1 ≤ N) :
    (analyzeDamage nE N sample).strikes.length = N ∧
    (analyzeDamage nE N sample).damage_values.length = N ∧
    (analyzeDamage nE N sample).cumulative_damage.length = N ∧
    (∀ i, i < N → (analyzeDamage nE N sample).damage_values.getD i 0 =
      ((List.range nE).map (fun j => sample i j)).sum) ∧
    (∀ i, i < N → (analyzeDamage nE N sample).cumulative_damage.getD i 0 =
      ((analyzeDamage nE N sample).damage_values.take (i + 1)).sum) ∧
    (analyzeDamage nE N sample).min_damage ∈ (analyzeDamage nE N sample).damage_values ∧
    (∀ v ∈ (analyzeDamage nE N sample).damage_values,
      (analyzeDamage nE N sample).min_damage ≤ v) ∧
    (analyzeDamage nE N sample).max_damage ∈ (analyzeDamage nE N sample).damage_values ∧
    (∀ v ∈ (analyzeDamage nE N sample).damage_values,
      v ≤ (analyzeDamage nE N sample).max_damage) := by
  have hlen : (damageValues nE N sample).length = N := by simp [damageValues]
  have hne : damageValues nE N sample ≠ [] := by
    intro h
    rw [h] at hlen
    simp at hlen
    omega
  obtain ⟨hminmem, hminle⟩ := qmin_spec _ hne
  obtain ⟨hmaxmem, hmaxle⟩ := qmax_spec _ hne
  refine ⟨by simp [analyzeDamage], hlen, ?_, ?_, ?_, hminmem, hminle, hmaxmem, hmaxle⟩
  · show (cumSums 0 (damageValues nE N sample)).length = N
    rw [cumSums_length, hlen]
  · intro i hi
    exact getD_map_range (strikeDamage nE sample) hi
  · intro i hi
    show (cumSums 0 (damageValues nE N sample)).getD i 0 =
      ((damageValues nE N sample).take (i + 1)).sum
    rw [cumSums_getD _ 0 i (by rw [hlen]; exact hi), zero_add]

/-- C1 witness: the simulation theorem at a concrete run of 3 strikes
over 2 effects. -/
theorem analyzeDamage_spec_witness :
    (analyzeDamage 2 3 sampleSource).strikes.length = 3 ∧
    (analyzeDamage 2 3 sampleSource).cumulative_damage.getD 1 0 =
      ((analyzeDamage 2 3 sampleSource).damage_values.take 2).sum ∧
    (analyzeDamage 2 3 sampleSource).min_damage ∈
      (analyzeDamage 2 3 sampleSource).damage_values :=
  ⟨(analyzeDamage_spec 2 3 sampleSource (by decide)).1,
   (analyzeDamage_spec 2 3 sampleSource (by decide)).2.2.2.2.1 1 (by decide),
   (analyzeDamage_spec 2 3 sampleSource (by decide)).2.2.2.2.2.1⟩

/-! ## Theorems: C2 (histogram binning) -/

/-- Setting an in-bounds entry changes its `getD` to the new value. -/
theorem getD_set_self : ∀ (b : List ℕ) (j x : ℕ), j < b.length →
    (b.set j x).getD j 0 = x := by
  intro b
  induction b with
  | nil => intro j x h; simp at h
  | cons a tl ih =>
    intro j x h
    cases j with
    | zero => rfl
    | succ n => exact ih n x (by simpa using h)

/-- Setting one entry leaves every other `getD` unchanged. -/
theorem getD_set_ne : ∀ (b : List ℕ) (j i x : ℕ), j ≠ i →
    (b.set j x).getD i 0 = b.getD i 0 := by
  intro b
  induction b with
  | nil => intro j i x _; rfl
  | cons a tl ih =>
    intro j i x h
    cases j with
    | zero =>
      cases i with
      | zero => exact absurd rfl h
      | succ m => rfl
    | succ n =>
      cases i with
      | zero => rfl
      | succ m => exact ih n m x (fun he => h (by rw [he]))

/-- Incrementing an in-bounds entry increments the total. -/
theorem sum_set_getD : ∀ (b : List ℕ) (j : ℕ), j < b.length →
    (b.set j (b.getD j 0 + 1)).sum = b.sum + 1 := by
  intro b
  induction b with
  | nil => intro j h; simp at h
  | cons a tl ih =>
    intro j h
    cases j with
    | zero => simp [List.sum_cons]; omega
    | succ n =>
      have hn : n < tl.length := by simpa using h
      have h1 : ((a :: tl).set (n + 1) ((a :: tl).getD (n + 1) 0 + 1)).sum =
          a + (tl.set n (tl.getD n 0 + 1)).sum := rfl
      rw [h1, ih n hn]
      simp [List.sum_cons]
      omega

/-- Invariant of the binning fold: the number of bins stays 20, each bin
holds its previous value plus the number of processed values with that
index, and the total grows by the number of processed values — provided
every value's index is in `[0, 19]`. -/
theorem binsFold_spec (mn mx : ℚ) :
    ∀ (l : List ℚ), (∀ v ∈ l, 0 ≤ binIndex mn mx v ∧ binIndex mn mx v ≤ 19) →
    ∀ (b : List ℕ), b.length = 20 →
      (l.foldl (fun b v => bumpBin b (binIndex mn mx v)) b).length = 20 ∧
      (∀ i : ℕ, i < 20 →
        (l.foldl (fun b v => bumpBin b (binIndex mn mx v)) b).getD i 0 =
          b.getD i 0 + l.countP (fun v => decide (binIndex mn mx v = (i : ℤ)))) ∧
      (l.foldl (fun b v => bumpBin b (binIndex mn mx v)) b).sum = b.sum + l.length := by
  intro l
  induction l with
  | nil =>
    intro _ b hb
    refine ⟨hb, ?_, by simp⟩
    intro i _
    simp
  | cons v tl ih =>
    intro hall b hb
    have hv := hall v (List.mem_cons_self _ _)
    have htl : ∀ u ∈ tl, 0 ≤ binIndex mn mx u ∧ binIndex mn mx u ≤ 19 :=
      fun u hu => hall u (List.mem_cons_of_mem _ hu)
    have hbump : bumpBin b (binIndex mn mx v) =
        b.set (binIndex mn mx v).toNat (b.getD (binIndex mn mx v).toNat 0 + 1) := by
      rw [bumpBin, if_pos hv.1]
    have htn : (binIndex mn mx v).toNat < 20 := by omega
    have hb' : (bumpBin b (binIndex mn mx v)).length = 20 := by
      rw [hbump, List.length_set, hb]
    obtain ⟨L1, L2, L3⟩ := ih htl (bumpBin b (binIndex mn mx v)) hb'
    have hfold : (v :: tl).foldl (fun b v => bumpBin b (binIndex mn mx v)) b =
        tl.foldl (fun b v => bumpBin b (binIndex mn mx v)) (bumpBin b (binIndex mn mx v)) := rfl
    refine ⟨by rw [hfold]; exact L1, ?_, ?_⟩
    · intro i hi
      rw [hfold, L2 i hi, List.countP_cons]
      by_cases hei : binIndex mn mx v = (i : ℤ)
      · have htn_eq : (binIndex mn mx v).toNat = i := by omega
        rw [hbump, htn_eq, getD_set_self b i _ (by omega), hei]
        simp
        omega
      · have htn_ne : (binIndex mn mx v).toNat ≠ i := by omega
        rw [hbump, getD_set_ne b _ i _ htn_ne]
        simp [hei]
    · rw [hfold, L3, hbump, sum_set_getD b _ (by omega)]
      simp [List.length_cons]
      omega

/-- Zeroed bins read as zero at every index. -/
theorem getD_replicate_zero : ∀ (n i : ℕ), (List.replicate n (0 : ℕ)).getD i 0 = 0 := by
  intro n
  induction n with
  | zero => intro i; cases i <;> rfl
  | succ m ih =>
    intro i
    cases i with
    | zero => rfl
    | succ k => exact ih k

/-- For `min ≤ v`, the computed bin index is in `[0, 19]`. -/
theorem binIndex_bounds (mn mx v : ℚ) (hlt : mn < mx) (h1 : mn ≤ v) :
    0 ≤ binIndex mn mx v ∧ binIndex mn mx v ≤ 19 := by
  have hbs : 0 < (mx - mn) / 20 := div_pos (by linarith) (by norm_num)
  constructor
  · rw [binIndex]
    apply le_min
    · exact Int.le_floor.2 (by push_cast; exact div_nonneg (by linarith) hbs.le)
    · norm_num
  · exact min_le_right _ _

/-- The maximum damage value falls into the last bin. -/
theorem binIndex_top (mn mx : ℚ) (hlt : mn < mx) : binIndex mn mx mx = 19 := by
  have hne : mx - mn ≠ 0 := sub_ne_zero.2 hlt.ne'
  have h20 : (mx - mn) / ((mx - mn) / 20) = 20 := by field_simp
  rw [binIndex, h20]
  have hfl : ⌊(20 : ℚ)⌋ = 20 := by norm_num
  rw [hfl]
  decide

/-- The partition property: for a value in `[min, max]` and a bin index
`i < 20`, the value lands in bin `i` exactly when it lies in that bin's
window of width `(max - min)/20` — half-open for `i ≤ 18`, closed at
`max` for `i = 19`. -/
theorem binIndex_eq_iff (mn mx v : ℚ) (i : ℕ) (hi : i < 20) (hlt : mn < mx)
    (h1 : mn ≤ v) (h2 : v ≤ mx) :
    binIndex mn mx v = (i : ℤ) ↔
      (mn + (i : ℚ) * ((mx - mn) / 20) ≤ v ∧
        (v < mn + ((i : ℚ) + 1) * ((mx - mn) / 20) ∨ (i = 19 ∧ v ≤ mx))) := by
  have hbs : 0 < (mx - mn) / 20 := div_pos (by linarith) (by norm_num)
  set bs := (mx - mn) / 20 with hbsdef
  have h20bs : 20 * bs = mx - mn := by rw [hbsdef]; field_simp
  set x := (v - mn) / bs with hxdef
  have hkey₁ : ∀ q : ℚ, (q ≤ x ↔ mn + q * bs ≤ v) := by
    intro q
    rw [hxdef, le_div_iff hbs]
    constructor <;> intro h <;> linarith
  have hkey₂ : ∀ q : ℚ, (x < q ↔ v < mn + q * bs) := by
    intro q
    rw [hxdef, div_lt_iff hbs]
    constructor <;> intro h <;> linarith
  have hfl_le : ((⌊x⌋ : ℚ)) ≤ x := Int.floor_le x
  have hx20 : x ≤ 20 := by rw [hxdef, div_le_iff hbs]; linarith
  have hlhs : binIndex mn mx v = min ⌊x⌋ 19 := rfl
  rcases le_or_lt ⌊x⌋ 19 with hc | hc
  · rw [hlhs, min_eq_left hc]
    by_cases h19 : i = 19
    · subst h19
      constructor
      · intro he
        have h19x : ((19 : ℤ) : ℚ) ≤ x := by
          exact_mod_cast Int.le_floor.1 (le_of_eq (by exact_mod_cast he.symm))
        refine ⟨?_, Or.inr ⟨rfl, h2⟩⟩
        have := (hkey₁ 19).1 (by push_cast at h19x; exact h19x)
        push_cast
        linarith
      · rintro ⟨hlo, _⟩
        have h19x : (19 : ℚ) ≤ x := (hkey₁ 19).2 (by push_cast at hlo; linarith)
        have h19n : (19 : ℤ) ≤ ⌊x⌋ := Int.le_floor.2 (by push_cast; exact h19x)
        push_cast
        omega
    · constructor
      · intro he
        obtain ⟨ha, hb⟩ := Int.floor_eq_iff.1 he
        refine ⟨?_, Or.inl ?_⟩
        · have := (hkey₁ i).1 (by push_cast at ha ⊢; exact ha)
          linarith
        · have := (hkey₂ ((i : ℚ) + 1)).1 (by push_cast at hb ⊢; linarith)
          linarith
      · rintro ⟨hlo, hup⟩
        rcases hup with hup | ⟨h19', _⟩
        · apply Int.floor_eq_iff.2
          constructor
          · have := (hkey₁ i).2 (by linarith)
            push_cast
            linarith
          · have := (hkey₂ ((i : ℚ) + 1)).2 (by linarith)
            push_cast
            linarith
        · exact absurd h19' h19
  · rw [hlhs, min_eq_right (le_of_lt hc)]
    have h19x : (19 : ℚ) < x := by
      have h1' : ((19 : ℤ) : ℚ) < ((⌊x⌋ : ℤ) : ℚ) := by exact_mod_cast hc
      push_cast at h1'
      linarith
    by_cases h19 : i = 19
    · subst h19
      constructor
      · intro _
        refine ⟨?_, Or.inr ⟨rfl, h2⟩⟩
        have := (hkey₁ 19).1 (le_of_lt h19x)
        push_cast
        linarith
      · intro _
        norm_num
    · constructor
      · intro he
        push_cast at he
        omega
      · rintro ⟨hlo, hup⟩
        rcases hup with hup | ⟨h19', _⟩
        · have hx19 : x < 19 := by
          -- v < mn + (i+1)*bs with i + 1 ≤ 19 forces x < 19
            have hi18 : (i : ℚ) + 1 ≤ 19 := by
              have : (i : ℚ) ≤ 18 := by
                have : i ≤ 18 := by omega
                exact_mod_cast this
              linarith
            have := (hkey₂ ((i : ℚ) + 1)).2 hup
            nlinarith [hbs]
          linarith
        · exact absurd h19' h19

/-- C2: for an analysis result with `max > min` whose damage values all
lie in `[min, max]`, the histogram has exactly 20 bins of equal width
`(max - min)/20`; every value with `min ≤ v` gets an in-range bin index
`min ⌊(v - min)/binSize⌋ 19`; the value `max` falls into the last bin;
bin `i` is exactly the window `[min + i·binSize, min + (i+1)·binSize)`
(closed at `max` for `i = 19`), so each value is counted in exactly one
bin; each bin count equals the number of values with that index; and the
bin counts sum to the number of damage values. -/
theorem distributionBins_spec (values : List ℚ) (mn mx : ℚ)
    (hlt : mn < mx) (hvals : ∀ v ∈ values, mn ≤ v ∧ v ≤ mx) :
    (distributionBins values mn mx).length = 20 ∧
    (∀ v, mn ≤ v → 0 ≤ binIndex mn mx v ∧ binIndex mn mx v ≤ 19) ∧
    binIndex mn mx mx = 19 ∧
    (∀ v, mn ≤ v → v ≤ mx → ∀ i : ℕ, i < 20 →
      (binIndex mn mx v = (i : ℤ) ↔
        (mn + (i : ℚ) * ((mx - mn) / 20) ≤ v ∧
          (v < mn + ((i : ℚ) + 1) * ((mx - mn) / 20) ∨ (i = 19 ∧ v ≤ mx))))) ∧
    (∀ i : ℕ, i < 20 →
      (distributionBins values mn mx).getD i 0 =
        values.countP (fun v => decide (binIndex mn mx v = (i : ℤ)))) ∧
    (distributionBins values mn mx).sum = values.length := by
  have hall : ∀ v ∈ values, 0 ≤ binIndex mn mx v ∧ binIndex mn mx v ≤ 19 :=
    fun v hv => binIndex_bounds mn mx v hlt (hvals v hv).1
  have hrep : (List.replicate 20 (0 : ℕ)).length = 20 := by simp
  obtain ⟨L1, L2, L3⟩ := binsFold_spec mn mx values hall (List.replicate 20 0) hrep
  refine ⟨L1, fun v hv => binIndex_bounds mn mx v hlt hv, binIndex_top mn mx hlt,
    fun v h1 h2 i hi => binIndex_eq_iff mn mx v i hi hlt h1 h2, ?_, ?_⟩
  · intro i hi
    simp only [distributionBins]
    rw [L2 i hi, getD_replicate_zero, Nat.zero_add]
  · simp only [distributionBins]
    rw [L3]
    simp

/-- C2 witness: the histogram theorem at the concrete damage values
`[0, 5, 10]` with range `[0, 10]`. -/
theorem distributionBins_spec_witness :
    (distributionBins [0, 5, 10] 0 10).length = 20 ∧
    (0 ≤ binIndex 0 10 5 ∧ binIndex 0 10 5 ≤ 19) ∧
    binIndex 0 10 10 = 19 ∧
    (binIndex 0 10 5 = (10 : ℤ) ↔
      ((0 : ℚ) + (10 : ℚ) * (((10 : ℚ) - 0) / 20) ≤ 5 ∧
        ((5 : ℚ) < 0 + ((10 : ℚ) + 1) * (((10 : ℚ) - 0) / 20) ∨ (10 = 19 ∧ (5 : ℚ) ≤ 10)))) ∧
    (distributionBins [0, 5, 10] 0 10).getD 0 0 =
      ([0, 5, 10] : List ℚ).countP (fun v => decide (binIndex 0 10 v = (0 : ℤ))) ∧
    (distributionBins [0, 5, 10] 0 10).sum = ([0, 5, 10] : List ℚ).length := by
  have h := distributionBins_spec [0, 5, 10] 0 10 (by norm_num) (by decide)
  exact ⟨h.1, h.2.1 5 (by norm_num), h.2.2.1, h.2.2.2.1 5 (by norm_num) (by norm_num) 10 (by norm_num),
    h.2.2.2.2.1 0 (by norm_num), h.2.2.2.2.2⟩

/-! ## Theorems: C9 (dice probabilities) -/

/-- The faces of an `n`-sided die are exactly the integers `1..n`. -/
theorem mem_dieSides {n : ℕ} {side : ℤ} :
    side ∈ dieSides n ↔ 1 ≤ side ∧ side ≤ (n : ℤ) := by
  rw [dieSides, List.mem_map]
  constructor
  · rintro ⟨k, hk, hks⟩
    rw [List.mem_range] at hk
    have hks' : (k : ℤ) + 1 = side := hks
    omega
  · rintro ⟨h1, h2⟩
    refine ⟨(side - 1).toNat, ?_, ?_⟩
    · rw [List.mem_range]
      omega
    · show ((side - 1).toNat : ℤ) + 1 = side
      omega

/-- A sum over the face list equals the sum over `Finset.Icc 1 n`. -/
theorem sum_map_dieSides (g : ℤ → ℕ) :
    ∀ (n : ℕ), ((dieSides n).map g).sum = ∑ side in Finset.Icc (1 : ℤ) (n : ℤ), g side := by
  intro n
  induction n with
  | zero =>
    rw [show ((0 : ℕ) : ℤ) = 0 by rfl, Finset.Icc_eq_empty (by norm_num)]
    simp [dieSides]
  | succ m ih =>
    have hds : dieSides (m + 1) = dieSides m ++ [(m : ℤ) + 1] := by
      simp [dieSides, List.range_succ]
    have hins : Finset.Icc (1 : ℤ) ((m : ℤ) + 1) =
        insert ((m : ℤ) + 1) (Finset.Icc (1 : ℤ) (m : ℤ)) := by
      ext y
      simp only [Finset.mem_Icc, Finset.mem_insert]
      omega
    have hcast : ((m + 1 : ℕ) : ℤ) = (m : ℤ) + 1 := by push_cast; ring
    rw [hds, List.map_append, List.sum_append, ih, hcast, hins,
      Finset.sum_insert (by simp only [Finset.mem_Icc]; omega)]
    simp only [List.map_cons, List.map_nil, List.sum_cons, List.sum_nil]
    omega

/-- `countP` distributes over `bind` as a sum of per-block counts. -/
theorem countP_bind {α β : Type} (L : List α) (f : α → List β) (p : β → Bool) :
    (L.bind f).countP p = (L.map (fun a => (f a).countP p)).sum := by
  induction L with
  | nil => rfl
  | cons a tl ih => simp [List.cons_bind, List.countP_append, ih]

/-- The outcome lists of `d` dice with `n` sides are exactly the lists of
`d` face values in `[1, n]`. -/
theorem mem_dieLists {n : ℕ} : ∀ (d : ℕ) (l : List ℤ),
    l ∈ dieLists n d ↔ l.length = d ∧ ∀ x ∈ l, 1 ≤ x ∧ x ≤ (n : ℤ) := by
  intro d
  induction d with
  | zero =>
    intro l
    simp only [dieLists, List.mem_singleton]
    constructor
    · rintro rfl; simp
    · rintro ⟨hl, _⟩; exact List.length_eq_zero.1 hl
  | succ m ih =>
    intro l
    simp only [dieLists, List.mem_bind, List.mem_map]
    constructor
    · rintro ⟨side, hside, t, ht, rfl⟩
      obtain ⟨hlen, hmem⟩ := (ih t).1 ht
      obtain ⟨h1, h2⟩ := mem_dieSides.1 hside
      refine ⟨by simp [hlen], ?_⟩
      intro x hx
      rcases List.mem_cons.1 hx with rfl | hx
      · exact ⟨h1, h2⟩
      · exact hmem x hx
    · rintro ⟨hlen, hmem⟩
      cases l with
      | nil => simp at hlen
      | cons a t =>
        refine ⟨a, mem_dieSides.2 (hmem a (List.mem_cons_self _ _)), t, ?_, rfl⟩
        apply (ih t).2
        refine ⟨by simpa using hlen, ?_⟩
        intro x hx
        exact hmem x (List.mem_cons_of_mem _ hx)

/-- There are `n ^ d` ordered outcomes of `d` dice with `n` sides. -/
theorem length_dieLists (n : ℕ) : ∀ (d : ℕ), (dieLists n d).length = n ^ d := by
  intro d
  induction d with
  | zero => rfl
  | succ m ih =>
    simp only [dieLists]
    rw [List.length_bind]
    have hmap : (dieSides n).map (fun side => ((dieLists n m).map (fun l => side :: l)).length)
        = List.replicate (dieSides n).length (n ^ m) := by
      apply List.eq_replicate.2
      refine ⟨by simp, ?_⟩
      intro b hb
      simp only [List.mem_map] at hb
      obtain ⟨side, _, rfl⟩ := hb
      rw [List.length_map, ih]
    simp only [Function.comp_def]
    rw [hmap, List.sum_replicate, smul_eq_mul]
    have hlen : (dieSides n).length = n := by simp [dieSides]
    rw [hlen, pow_succ]
    ring

/-- The dynamic-programming count equals the number of ordered outcomes
with the given total. -/
theorem waysIter_eq_outcomeCount (n : ℕ) :
    ∀ (d : ℕ) (s : ℤ), waysIter n d s = outcomeCount n d s := by
  intro d
  induction d with
  | zero =>
    intro s
    by_cases h : s = 0 <;>
      simp [waysIter, outcomeCount, dieLists, h, eq_comm]
  | succ m ih =>
    intro s
    show stepWays n (waysIter n m) s = outcomeCount n (m + 1) s
    simp only [stepWays, outcomeCount, dieLists]
    rw [countP_bind]
    have hside : ∀ side : ℤ,
        ((dieLists n m).map (fun l => side :: l)).countP (fun l => decide (l.sum = s))
          = outcomeCount n m (s - side) := by
      intro side
      rw [List.countP_map]
      unfold outcomeCount
      congr 1
      funext l
      simp only [Function.comp, List.sum_cons]
      exact decide_eq_decide.mpr (by omega)
    have hfun : (fun side => ((dieLists n m).map (fun l => side :: l)).countP
        (fun l => decide (l.sum = s))) = fun side => outcomeCount n m (s - side) :=
      funext hside
    rw [hfun, sum_map_dieSides (fun side => outcomeCount n m (s - side)) n]
    exact Finset.sum_congr rfl (fun side _ => ih (s - side))

/-- A list of values in `[1, n]` sums to something in
`[length, length·n]`. -/
theorem sum_bounds_of_all {n : ℕ} : ∀ (l : List ℤ), (∀ x ∈ l, 1 ≤ x ∧ x ≤ (n : ℤ)) →
    (l.length : ℤ) ≤ l.sum ∧ l.sum ≤ (l.length : ℤ) * (n : ℤ) := by
  intro l
  induction l with
  | nil => intro _; simp
  | cons a t ih =>
    intro h
    obtain ⟨h1, h2⟩ := h a (List.mem_cons_self _ _)
    obtain ⟨ih1, ih2⟩ := ih (fun x hx => h x (List.mem_cons_of_mem _ hx))
    simp only [List.sum_cons, List.length_cons]
    push_cast
    constructor
    · linarith
    · nlinarith

/-- Every total in `[d, d·n]` is attained by some ordered outcome. -/
theorem exists_outcome {n : ℕ} (hn : 1 ≤ n) : ∀ (d : ℕ) (s : ℤ),
    (d : ℤ) ≤ s → s ≤ (d : ℤ) * (n : ℤ) → ∃ l ∈ dieLists n d, l.sum = s := by
  intro d
  induction d with
  | zero =>
    intro s h1 h2
    refine ⟨[], by simp [dieLists], ?_⟩
    simp only [Nat.cast_zero, zero_mul] at h1 h2
    simp
    omega
  | succ m ih =>
    intro s h1 h2
    have hcast : ((m + 1 : ℕ) : ℤ) = (m : ℤ) + 1 := by push_cast; ring
    have h1n : (1 : ℤ) ≤ (n : ℤ) := by exact_mod_cast hn
    have hm0 : (0 : ℤ) ≤ (m : ℤ) := Int.natCast_nonneg m
    have hmn : (m : ℤ) ≤ (m : ℤ) * (n : ℤ) := by nlinarith
    rw [hcast] at h1 h2
    have hring : ((m : ℤ) + 1) * (n : ℤ) = (m : ℤ) * (n : ℤ) + (n : ℤ) := by ring
    rw [hring] at h2
    by_cases hc : s - (m : ℤ) * (n : ℤ) ≤ 1
    · obtain ⟨t, ht, hts⟩ := ih (s - 1) (by linarith) (by linarith)
      refine ⟨(1 : ℤ) :: t, ?_, by simp [List.sum_cons, hts]⟩
      apply (mem_dieLists (m + 1) _).2
      obtain ⟨hlen, hmem⟩ := (mem_dieLists m t).1 ht
      refine ⟨by simp [hlen], ?_⟩
      intro x hx
      rcases List.mem_cons.1 hx with rfl | hx
      · exact ⟨le_refl 1, h1n⟩
      · exact hmem x hx
    · push_neg at hc
      obtain ⟨t, ht, hts⟩ := ih ((m : ℤ) * (n : ℤ)) hmn (le_refl _)
      refine ⟨(s - (m : ℤ) * (n : ℤ)) :: t, ?_, ?_⟩
      · apply (mem_dieLists (m + 1) _).2
        obtain ⟨hlen, hmem⟩ := (mem_dieLists m t).1 ht
        refine ⟨by simp [hlen], ?_⟩
        intro x hx
        rcases List.mem_cons.1 hx with rfl | hx
        · exact ⟨by linarith, by linarith⟩
        · exact hmem x hx
      · simp only [List.sum_cons, hts]
        ring

/-- Summing the per-total counts over a set containing every attained
total recovers the number of outcomes. -/
theorem sum_countP_eq {F : Finset ℤ} : ∀ (L : List (List ℤ)), (∀ l ∈ L, l.sum ∈ F) →
    (∑ s in F, L.countP (fun l => decide (l.sum = s))) = L.length := by
  intro L
  induction L with
  | nil => intro _; simp
  | cons a t ih =>
    intro h
    have ha := h a (List.mem_cons_self _ _)
    have ht := fun l hl => h l (List.mem_cons_of_mem _ hl)
    simp only [List.countP_cons, decide_eq_true_eq]
    rw [Finset.sum_add_distrib, ih ht]
    have hone : (∑ s in F, if a.sum = s then 1 else 0) = 1 := by
      rw [Finset.sum_ite_eq F a.sum (fun _ => 1)]
      simp [ha]
    rw [hone]
    simp

/-- C9: for `numDice ≥ 1` and `numSides ≥ 1`, `calculateDiceProbabilities`
computes a distribution whose support is exactly the integers from
`numDice` to `numDice · numSides`, whose value at each total `s` is the
number of ordered outcomes (lists of `numDice` face values in
`[1, numSides]`, of which there are `numSides ^ numDice`) summing to `s`,
divided by `numSides ^ numDice`, and whose values sum to 1. -/
theorem calculateDiceProbabilities_spec (numDice numSides : ℕ)
    (hd : 1 ≤ numDice) (hn : 1 ≤ numSides) :
    (∀ l, l ∈ dieLists numSides numDice ↔
      l.length = numDice ∧ ∀ x ∈ l, 1 ≤ x ∧ x ≤ (numSides : ℤ)) ∧
    (dieLists numSides numDice).length = numSides ^ numDice ∧
    (∀ s : ℤ, calculateDiceProbabilities numDice numSides s =
      (outcomeCount numSides numDice s : ℚ) / ((numSides : ℚ) ^ numDice)) ∧
    (∀ s : ℤ, calculateDiceProbabilities numDice numSides s ≠ 0 ↔
      ((numDice : ℤ) ≤ s ∧ s ≤ (numDice : ℤ) * (numSides : ℤ))) ∧
    (∑ s in Finset.Icc (numDice : ℤ) ((numDice : ℤ) * (numSides : ℤ)),
      calculateDiceProbabilities numDice numSides s) = 1 := by
  have hn0 : (0 : ℚ) < (numSides : ℚ) := by exact_mod_cast hn
  have hnq : ((numSides : ℚ) ^ numDice) ≠ 0 := by positivity
  refine ⟨fun l => mem_dieLists numDice l, length_dieLists numSides numDice, ?_, ?_, ?_⟩
  · intro s
    rw [calculateDiceProbabilities, waysIter_eq_outcomeCount]
  · intro s
    rw [calculateDiceProbabilities]
    constructor
    · intro h
      have hw : waysIter numSides numDice s ≠ 0 := by
        intro h0
        rw [h0] at h
        simp at h
      rw [waysIter_eq_outcomeCount] at hw
      have hpos : 0 < (dieLists numSides numDice).countP (fun l => decide (l.sum = s)) := by
        unfold outcomeCount at hw
        omega
      obtain ⟨l, hl, hp⟩ := List.countP_pos.1 hpos
      obtain ⟨hlen, hmem⟩ := (mem_dieLists numDice l).1 hl
      have hb := sum_bounds_of_all l hmem
      have hsum : l.sum = s := of_decide_eq_true hp
      rw [hlen, hsum] at hb
      exact hb
    · rintro ⟨h1, h2⟩
      obtain ⟨l, hl, hsum⟩ := exists_outcome hn numDice s h1 h2
      have hpos : 0 < outcomeCount numSides numDice s :=
        List.countP_pos.2 ⟨l, hl, by simp [hsum]⟩
      have hw : waysIter numSides numDice s ≠ 0 := by
        rw [waysIter_eq_outcomeCount]
        omega
      intro hcontra
      rcases div_eq_zero_iff.1 hcontra with h0 | h0
      · exact hw (by exact_mod_cast h0)
      · exact hnq h0
  · have hsum_ways : (∑ s in Finset.Icc (numDice : ℤ) ((numDice : ℤ) * (numSides : ℤ)),
        waysIter numSides numDice s) = numSides ^ numDice := by
      have hall : ∀ l ∈ dieLists numSides numDice,
          l.sum ∈ Finset.Icc (numDice : ℤ) ((numDice : ℤ) * (numSides : ℤ)) := by
        intro l hl
        obtain ⟨hlen, hmem⟩ := (mem_dieLists numDice l).1 hl
        have hb := sum_bounds_of_all l hmem
        rw [hlen] at hb
        simp only [Finset.mem_Icc]
        exact hb
      calc (∑ s in Finset.Icc (numDice : ℤ) ((numDice : ℤ) * (numSides : ℤ)),
              waysIter numSides numDice s)
          = ∑ s in Finset.Icc (numDice : ℤ) ((numDice : ℤ) * (numSides : ℤ)),
              (dieLists numSides numDice).countP (fun l => decide (l.sum = s)) :=
            Finset.sum_congr rfl (fun s _ => waysIter_eq_outcomeCount numSides numDice s)
        _ = (dieLists numSides numDice).length := sum_countP_eq _ hall
        _ = numSides ^ numDice := length_dieLists numSides numDice
    simp only [calculateDiceProbabilities]
    rw [← Finset.sum_div, ← Nat.cast_sum, hsum_ways, Nat.cast_pow]
    exact div_self hnq

/-- C9 witness: `2d2` — the probability of total 3 equals the outcome
count over 4, the support characterization holds at 3, and the
probabilities over `[2, 4]` sum to 1. -/
theorem calculateDiceProbabilities_spec_witness :
    (calculateDiceProbabilities 2 2 3 =
      (outcomeCount 2 2 3 : ℚ) / ((2 : ℚ) ^ 2)) ∧
    ((calculateDiceProbabilities 2 2 3 ≠ 0) ↔
      (((2 : ℕ) : ℤ) ≤ 3 ∧ (3 : ℤ) ≤ ((2 : ℕ) : ℤ) * ((2 : ℕ) : ℤ))) ∧
    (∑ s in Finset.Icc ((2 : ℕ) : ℤ) (((2 : ℕ) : ℤ) * ((2 : ℕ) : ℤ)),
      calculateDiceProbabilities 2 2 s) = 1 :=
  ⟨by simpa using (calculateDiceProbabilities_spec 2 2 (by decide) (by decide)).2.2.1 3,
   (calculateDiceProbabilities_spec 2 2 (by decide) (by decide)).2.2.2.1 3,
   (calculateDiceProbabilities_spec 2 2 (by decide) (by decide)).2.2.2.2⟩

end Raveling
